import Mathlib

/-!
Shallow embedding of the timeline/splice core of `src/src/script.js`
(video-utilities).  JavaScript numbers are modelled as exact rationals;
an absent or non-finite `out` field of a segment is modelled as `none`,
and likewise for a bookmark's `time`.  The ambient inputs consumed by
`createBookmark` (`Date.now()` and the floored `Math.random()*1000` draw)
are made explicit arguments `now` and `rand`.
-/

/-- A trimmed reference to a source clip: the segment object literals of the
source. `out` is `none` when the field is absent or not a finite number. -/
structure Segment where
  id : String
  duration : ℚ
  «in» : ℚ
  out : Option ℚ
  label : String
deriving DecidableEq, Repr

/-- A derived range of the composite timeline (`computeTimeline` pushes one
such record per segment). -/
structure Range where
  start : ℚ
  «end» : ℚ
  duration : ℚ
  segment : Segment
deriving DecidableEq, Repr

/-- The `{total, ranges}` record returned by `computeTimeline`. -/
structure Timeline where
  total : ℚ
  ranges : List Range
deriving DecidableEq, Repr

/-- The record returned by `findSegmentAtTime`; `index` is `-1` and `segment`
is `none` in the empty-timeline sentinel. -/
structure FindResult where
  index : ℤ
  segment : Option Segment
  localTime : ℚ
  offset : ℚ
  time : ℚ
  total : ℚ
deriving DecidableEq, Repr

/-- A saved cut point, as produced by `createBookmark` and consumed by
`resolveBookmarkTime`.  `time` is `none` when absent or not finite. -/
structure Bookmark where
  id : String
  time : Option ℚ
  frame : ℤ
  image : String
deriving DecidableEq, Repr

/-- `DEFAULT_FPS` of the source. -/
def DEFAULT_FPS : ℚ := 30

/-- `clamp(value, min, max)` from the source. -/
def clamp (value lo hi : ℚ) : ℚ := min (max value lo) hi

/-- `normalizeFps`: a positive finite number is kept, anything else falls back
to the default (over `ℚ` every value is finite, so only positivity remains). -/
def normalizeFps (value : ℚ) : ℚ :=
  if 0 < value then value else DEFAULT_FPS

/-- `frameToTime(frameIndex, fps)`: floor the frame, clamp to `≥ 0`, divide by
the normalized fps. -/
def frameToTime (frameIndex fps : ℚ) : ℚ :=
  let safeFps := normalizeFps fps
  let frame : ℤ := max 0 ⌊frameIndex⌋
  (frame : ℚ) / safeFps

/-- `timeToFrame(timeSeconds, fps)`: clamp the time to `≥ 0`, multiply by the
normalized fps, floor. -/
def timeToFrame (timeSeconds fps : ℚ) : ℤ :=
  let safeFps := normalizeFps fps
  let time := max 0 timeSeconds
  ⌊time * safeFps⌋

/-- `resolveBookmarkTime(bookmarks, bookmarkId)`: `none` for a falsy or absent
id, a missing match, or a match whose `time` is not a finite number. -/
def resolveBookmarkTime (bookmarks : List Bookmark) (bookmarkId : Option String) :
    Option ℚ :=
  match bookmarkId with
  | none => none
  | some bid =>
    if bid = "" then none
    else
      match bookmarks.find? (fun entry => entry.id == bid) with
      | none => none
      | some m =>
        match m.time with
        | some t => some t
        | none => none

/-- `createBookmark(timeSeconds, fps, imageDataUrl)`.  The id string
`bm-${Date.now()}-${Math.floor(Math.random()*1000)}` is built from the ambient
clock reading `now` and random draw `rand`, made explicit here. -/
def createBookmark (timeSeconds fps : ℚ) (imageDataUrl : String) (now rand : ℕ) :
    Bookmark :=
  let time := max 0 timeSeconds
  { id := "bm-" ++ toString now ++ "-" ++ toString rand
    time := some time
    frame := timeToFrame time fps
    image := imageDataUrl }

/-- `computeSegmentDuration(segment)`: `out - in` when `out` is finite and
greater than `in`, else `max(0, duration - in)`; `0` for a missing segment. -/
def computeSegmentDuration (segment : Option Segment) : ℚ :=
  match segment with
  | none => 0
  | some seg =>
    match seg.out with
    | some e => if seg.«in» < e then e - seg.«in» else max 0 (seg.duration - seg.«in»)
    | none => max 0 (seg.duration - seg.«in»)

/-- Effective duration of a present segment. -/
def effDur (seg : Segment) : ℚ := computeSegmentDuration (some seg)

/-- One iteration of the `forEach` loop of `computeTimeline`: push the range of
the next segment and advance the running total. -/
def timelineStep (acc : List Range × ℚ) (segment : Segment) : List Range × ℚ :=
  let duration := computeSegmentDuration (some segment)
  let start := acc.2
  (acc.1 ++ [⟨start, start + duration, duration, segment⟩], start + duration)

/-- `computeTimeline(segments)`: cumulative ranges and total duration. -/
def computeTimeline (segments : List Segment) : Timeline :=
  let r := segments.foldl timelineStep ([], 0)
  ⟨r.2, r.1⟩

/-- The scan loop of `findSegmentAtTime`: take the first range whose `end` is
`≥` the clamped time, with the last range taken unconditionally. -/
def scanRanges (clamped total : ℚ) : ℕ → List Range → FindResult
  | _, [] => ⟨-1, none, 0, 0, clamped, total⟩
  | i, range :: rest =>
    if clamped ≤ range.«end» ∨ rest = [] then
      ⟨(i : ℤ), some range.segment, clamped - range.start, range.start, clamped, total⟩
    else scanRanges clamped total (i + 1) rest

/-- `findSegmentAtTime(segments, timeSeconds)`. -/
def findSegmentAtTime (segments : List Segment) (timeSeconds : ℚ) : FindResult :=
  let tl := computeTimeline segments
  if tl.ranges.isEmpty then ⟨-1, none, 0, 0, 0, 0⟩
  else
    let clamped := clamp timeSeconds 0 tl.total
    scanRanges clamped tl.total 0 tl.ranges

/-- `spliceSegments(segments, cutTime, newSegment)`. -/
def spliceSegments (segments : List Segment) (cutTime : ℚ)
    (newSegment : Option Segment) : List Segment :=
  let current := segments
  if current.isEmpty then
    match newSegment with
    | some ns => [ns]
    | none => []
  else
    match newSegment with
    | none => current
    | some ns =>
      let total := (computeTimeline current).total
      let normalizedCut := clamp cutTime 0 total
      if normalizedCut ≤ 0 then [ns]
      else
        let r := findSegmentAtTime current normalizedCut
        match r.segment with
        | none => current
        | some segment =>
          if r.index < 0 then current
          else
            let next := current.take r.index.toNat
            let trimmedEnd := segment.«in» + r.localTime
            (if segment.«in» < trimmedEnd then
              next ++ [{ segment with out := some trimmedEnd }]
            else next) ++ [ns]

/-- Ranges of a segment list starting at a given composite offset; the
spelled-out form of the range list pushed by `computeTimeline`. -/
def buildRanges (offset : ℚ) : List Segment → List Range
  | [] => []
  | seg :: rest =>
    let d := effDur seg
    ⟨offset, offset + d, d, seg⟩ :: buildRanges (offset + d) rest

/-- Sum of effective durations of a segment list. -/
def sumDur (segments : List Segment) : ℚ := (segments.map effDur).sum

/-! ### Basic facts about durations and the timeline fold -/

theorem computeSegmentDuration_nonneg (s : Option Segment) :
    0 ≤ computeSegmentDuration s := by
  unfold computeSegmentDuration
  split
  · exact le_refl 0
  · split
    · split
      · next h => linarith
      · exact le_max_left (0 : ℚ) _
    · exact le_max_left (0 : ℚ) _

theorem effDur_nonneg (seg : Segment) : 0 ≤ effDur seg :=
  computeSegmentDuration_nonneg (some seg)

theorem sumDur_nonneg (segments : List Segment) : 0 ≤ sumDur segments := by
  unfold sumDur
  refine List.sum_nonneg ?_
  intro x hx
  obtain ⟨s, hs, rfl⟩ := List.mem_map.mp hx
  exact effDur_nonneg s

theorem sumDur_nil : sumDur [] = 0 := rfl

theorem sumDur_cons (s : Segment) (rest : List Segment) :
    sumDur (s :: rest) = effDur s + sumDur rest := by
  simp [sumDur]

theorem sumDur_append (l₁ l₂ : List Segment) :
    sumDur (l₁ ++ l₂) = sumDur l₁ + sumDur l₂ := by
  simp [sumDur]

theorem sumDur_take_succ (segments : List Segment) (i : ℕ) (h : i < segments.length) :
    sumDur (segments.take (i + 1)) = sumDur (segments.take i) + effDur segments[i] := by
  unfold sumDur
  rw [List.map_take, List.map_take, List.sum_take_succ _ _ (by simpa using h)]
  simp

theorem sumDur_take_mono (segments : List Segment) {i j : ℕ} (h : i ≤ j) :
    sumDur (segments.take i) ≤ sumDur (segments.take j) := by
  have hj : j = i + (j - i) := by omega
  rw [hj, List.take_add, sumDur_append]
  have := sumDur_nonneg ((segments.drop i).take (j - i))
  linarith

theorem sumDur_take_length (segments : List Segment) :
    sumDur (segments.take segments.length) = sumDur segments := by
  rw [List.take_length]

theorem sumDur_take_strict_mono (segments : List Segment)
    (hpos : ∀ s ∈ segments, 0 < effDur s) {i j : ℕ} (hij : i < j)
    (hj : j ≤ segments.length) :
    sumDur (segments.take i) < sumDur (segments.take j) := by
  have hi : i < segments.length := lt_of_lt_of_le hij hj
  have step : sumDur (segments.take i) < sumDur (segments.take (i + 1)) := by
    rw [sumDur_take_succ segments i hi]
    have hmem : segments[i] ∈ segments := List.getElem_mem hi
    have := hpos _ hmem
    linarith
  exact lt_of_lt_of_le step (sumDur_take_mono segments hij)

theorem foldl_timelineStep (segments : List Segment) :
    ∀ (racc : List Range) (t : ℚ),
      segments.foldl timelineStep (racc, t)
        = (racc ++ buildRanges t segments, t + sumDur segments) := by
  induction segments with
  | nil => intro racc t; simp [buildRanges, sumDur]
  | cons s rest ih =>
    intro racc t
    rw [List.foldl_cons]
    show List.foldl timelineStep
        (racc ++ [⟨t, t + effDur s, effDur s, s⟩], t + effDur s) rest = _
    rw [ih]
    refine Prod.ext ?_ ?_
    · show racc ++ [⟨t, t + effDur s, effDur s, s⟩] ++ buildRanges (t + effDur s) rest
        = racc ++ buildRanges t (s :: rest)
      rw [List.append_assoc]
      rfl
    · show t + effDur s + sumDur rest = t + sumDur (s :: rest)
      rw [sumDur_cons]
      ring

theorem computeTimeline_eq (segments : List Segment) :
    computeTimeline segments = ⟨sumDur segments, buildRanges 0 segments⟩ := by
  unfold computeTimeline
  rw [foldl_timelineStep segments [] 0]
  simp

theorem buildRanges_length (offset : ℚ) (segments : List Segment) :
    (buildRanges offset segments).length = segments.length := by
  induction segments generalizing offset with
  | nil => rfl
  | cons s rest ih => simp [buildRanges, ih]

theorem buildRanges_get (segments : List Segment) :
    ∀ (offset : ℚ) (i : ℕ) (h : i < segments.length),
      (buildRanges offset segments).get ⟨i, by rwa [buildRanges_length]⟩ =
        ⟨offset + sumDur (segments.take i),
         offset + sumDur (segments.take (i + 1)),
         effDur (segments.get ⟨i, h⟩), segments.get ⟨i, h⟩⟩ := by
  induction segments with
  | nil => intro offset i h; exact absurd h (by simp)
  | cons s rest ih =>
    intro offset i h
    cases i with
    | zero =>
      simp [buildRanges, sumDur_cons, sumDur_nil]
    | succ n =>
      have hn : n < rest.length := by simpa using h
      show (buildRanges (offset + effDur s) rest).get ⟨n, _⟩ = _
      rw [ih (offset + effDur s) n hn]
      have h1 : (s :: rest).take (n + 1) = s :: rest.take n := rfl
      have h2 : (s :: rest).take (n + 2) = s :: rest.take (n + 1) := rfl
      simp only [h1, h2, sumDur_cons, Range.mk.injEq, List.getElem_cons_succ]
      exact ⟨by ring, by ring, rfl, rfl⟩

/-! ### The scan loop of `findSegmentAtTime` -/

theorem scanRanges_spec (c tot : ℚ) :
    ∀ (rs : List Range) (i0 : ℕ), rs ≠ [] →
      ∃ k, ∃ h : k < rs.length,
        scanRanges c tot i0 rs =
          ⟨((i0 + k : ℕ) : ℤ), some (rs.get ⟨k, h⟩).segment,
            c - (rs.get ⟨k, h⟩).start, (rs.get ⟨k, h⟩).start, c, tot⟩
        ∧ (∀ j (hj : j < k), (rs.get ⟨j, lt_trans hj h⟩).«end» < c)
        ∧ (c ≤ (rs.get ⟨k, h⟩).«end» ∨ k = rs.length - 1) := by
  intro rs
  induction rs with
  | nil => intro i0 hne; exact absurd rfl hne
  | cons r rest ih =>
    intro i0 _
    by_cases hcond : c ≤ r.«end» ∨ rest = []
    · refine ⟨0, by simp, ?_, ?_, ?_⟩
      · show scanRanges c tot i0 (r :: rest) = _
        unfold scanRanges
        rw [if_pos hcond]
        simp
      · intro j hj; exact absurd hj (Nat.not_lt_zero j)
      · rcases hcond with h | h
        · exact Or.inl h
        · subst h; exact Or.inr rfl
    · push_neg at hcond
      obtain ⟨hend, hrest⟩ := hcond
      obtain ⟨k, hk, heq, hprev, hlast⟩ := ih (i0 + 1) hrest
      refine ⟨k + 1, by simpa using Nat.succ_lt_succ hk, ?_, ?_, ?_⟩
      · show scanRanges c tot i0 (r :: rest) = _
        unfold scanRanges
        rw [if_neg (by push_neg; exact ⟨hend, hrest⟩)]
        rw [heq]
        have : i0 + 1 + k = i0 + (k + 1) := by omega
        rw [this]
        rfl
      · intro j hj
        cases j with
        | zero => simpa using hend
        | succ m =>
          have hm : m < k := by omega
          simpa using hprev m hm
      · rcases hlast with h | h
        · exact Or.inl (by simpa using h)
        · refine Or.inr ?_
          have hlen : rest.length ≠ 0 := by
            intro hz; exact hrest (List.eq_nil_of_length_eq_zero hz)
          simp only [List.length_cons]
          omega

theorem clamp_le_hi (v lo hi : ℚ) : clamp v lo hi ≤ hi := min_le_right _ _

theorem clamp_nonneg (v hi : ℚ) (h : 0 ≤ hi) : 0 ≤ clamp v 0 hi :=
  le_min (le_max_right v 0) h

theorem clamp_eq_self (v lo hi : ℚ) (h1 : lo ≤ v) (h2 : v ≤ hi) :
    clamp v lo hi = v := by
  unfold clamp
  rw [max_eq_left h1, min_eq_left h2]

theorem buildRanges_ne_nil (segments : List Segment) (hne : segments ≠ []) :
    buildRanges 0 segments ≠ [] := by
  intro hnil
  have hlen := buildRanges_length 0 segments
  rw [hnil] at hlen
  exact hne (List.eq_nil_of_length_eq_zero hlen.symm)

/-- Full characterization of `findSegmentAtTime` on a non-empty segment list:
it selects the first index whose cumulative end reaches the clamped time (the
last index as a fallback), reporting the cumulative start as `offset` and the
remainder as `localTime`. -/
theorem findSegmentAtTime_spec (segments : List Segment) (t : ℚ)
    (hne : segments ≠ []) :
    ∃ k, ∃ h : k < segments.length,
      findSegmentAtTime segments t =
        ⟨(k : ℤ), some (segments.get ⟨k, h⟩),
          clamp t 0 (sumDur segments) - sumDur (segments.take k),
          sumDur (segments.take k), clamp t 0 (sumDur segments), sumDur segments⟩
      ∧ (∀ j, j < k → sumDur (segments.take (j + 1)) < clamp t 0 (sumDur segments))
      ∧ clamp t 0 (sumDur segments) ≤ sumDur (segments.take (k + 1)) := by
  have htl := computeTimeline_eq segments
  have hbne := buildRanges_ne_nil segments hne
  obtain ⟨k, hk, heq, hprev, hlast⟩ :=
    scanRanges_spec (clamp t 0 (sumDur segments)) (sumDur segments)
      (buildRanges 0 segments) 0 hbne
  have hk2 : k < segments.length := by rwa [buildRanges_length] at hk
  have hget := buildRanges_get segments 0 k hk2
  refine ⟨k, hk2, ?_, ?_, ?_⟩
  · show findSegmentAtTime segments t = _
    unfold findSegmentAtTime
    rw [htl]
    rw [if_neg (by simpa [List.isEmpty_iff] using hbne)]
    show scanRanges (clamp t 0 (sumDur segments)) (sumDur segments) 0
      (buildRanges 0 segments) = _
    rw [heq, hget]
    simp
  · intro j hj
    have hj2 : j < segments.length := lt_trans hj hk2
    have hgj := buildRanges_get segments 0 j hj2
    have := hprev j hj
    rw [hgj] at this
    simpa using this
  · rcases hlast with h | h
    · rw [hget] at h
      simpa using h
    · have hlen : k + 1 = segments.length := by
        rw [buildRanges_length] at h
        have : segments.length ≠ 0 := by
          intro hz; exact hne (List.eq_nil_of_length_eq_zero hz)
        omega
      rw [hlen, List.take_length]
      exact clamp_le_hi t 0 (sumDur segments)

/-- Characterization of `spliceSegments` when the clamped cut is positive:
the result keeps the first `k` segments, trims segment `k` so that its new
`out` is `in + localTime`, and appends the new segment; the trim branch is
always taken because the located offset is strictly below the cut. -/
theorem spliceSegments_spec (segments : List Segment) (ns : Segment) (cutTime : ℚ)
    (hne : segments ≠ [])
    (hpos : 0 < clamp cutTime 0 (sumDur segments)) :
    ∃ k, ∃ h : k < segments.length,
      (findSegmentAtTime segments (clamp cutTime 0 (sumDur segments))).index = (k : ℤ)
      ∧ spliceSegments segments cutTime (some ns) =
          segments.take k
            ++ [{ segments.get ⟨k, h⟩ with
                  out := some ((segments.get ⟨k, h⟩).«in»
                    + (clamp cutTime 0 (sumDur segments) - sumDur (segments.take k))) },
                ns]
      ∧ sumDur (segments.take k) < clamp cutTime 0 (sumDur segments)
      ∧ clamp cutTime 0 (sumDur segments) ≤ sumDur (segments.take (k + 1))
      ∧ (∀ j, j < k → sumDur (segments.take (j + 1)) < clamp cutTime 0 (sumDur segments)) := by
  have h0tot : 0 ≤ sumDur segments := sumDur_nonneg segments
  have hc0 : 0 ≤ clamp cutTime 0 (sumDur segments) := clamp_nonneg _ _ h0tot
  have hch : clamp cutTime 0 (sumDur segments) ≤ sumDur segments := clamp_le_hi _ _ _
  obtain ⟨k, hk, heq, hprev, hend⟩ :=
    findSegmentAtTime_spec segments (clamp cutTime 0 (sumDur segments)) hne
  have hcc : clamp (clamp cutTime 0 (sumDur segments)) 0 (sumDur segments)
      = clamp cutTime 0 (sumDur segments) := clamp_eq_self _ _ _ hc0 hch
  rw [hcc] at heq hprev hend
  have hofflt : sumDur (segments.take k) < clamp cutTime 0 (sumDur segments) := by
    cases k with
    | zero => simpa [sumDur_nil] using hpos
    | succ j => exact hprev j (Nat.lt_succ_self j)
  refine ⟨k, hk, ?_, ?_, hofflt, hend, hprev⟩
  · rw [heq]
  · have hisem : ¬ (segments.isEmpty = true) := by
      simpa [List.isEmpty_iff] using hne
    have htotal : (computeTimeline segments).total = sumDur segments := by
      rw [computeTimeline_eq]
    simp only [spliceSegments]
    rw [if_neg hisem, htotal, if_neg (not_le.mpr hpos), heq]
    simp only [Int.toNat_natCast]
    rw [if_neg (by simp), if_pos (by linarith)]
    rw [List.append_assoc]
    rfl

theorem effDur_set_out (seg : Segment) (lt : ℚ) (h : 0 < lt) :
    effDur { seg with out := some (seg.«in» + lt) } = lt := by
  unfold effDur computeSegmentDuration
  simp only
  rw [if_pos (by linarith)]
  ring

theorem spliceSegments_replace_all (segments : List Segment) (ns : Segment)
    (cutTime : ℚ) (hne : segments ≠ [])
    (hle : clamp cutTime 0 ((computeTimeline segments).total) ≤ 0) :
    spliceSegments segments cutTime (some ns) = [ns] := by
  have hisem : ¬ (segments.isEmpty = true) := by
    simpa [List.isEmpty_iff] using hne
  simp only [spliceSegments]
  rw [if_neg hisem, if_pos hle]

/-! ### Concrete segments used in witnesses and counterexamples -/

/-- A 4-second clip trimmed to its full length. -/
def demoA : Segment := ⟨"a", 4, 0, some 4, "A"⟩

/-- A 3-second clip trimmed to its full length. -/
def demoB : Segment := ⟨"b", 3, 0, some 3, "B"⟩

/-- A clip of effective duration zero. -/
def demoZ : Segment := ⟨"z", 0, 0, none, "Z"⟩

/-- A 5-second clip trimmed to the window `[1, 4]`. -/
def demoC : Segment := ⟨"c", 5, 1, some 4, "C"⟩

/-- A 2-second clip whose `out` field is absent. -/
def demoNoOut : Segment := ⟨"a", 2, 0, none, ""⟩

/-- The replacement clip used in splice scenarios. -/
def newX : Segment := ⟨"x", 6, 0, some 6, "X"⟩

/-! ### Claims -/

/-- Claim C6: for every non-empty segment list and present `newSegment`, a cut
time that clamps to `0` (because `cutTime ≤ 0` or the total is `0`) makes
`spliceSegments` return exactly `[newSegment]`, discarding the prior
timeline. -/
theorem claim6_replace_all (segments : List Segment) (ns : Segment) (cutTime : ℚ)
    (hne : segments ≠ [])
    (hzero : cutTime ≤ 0 ∨ (computeTimeline segments).total = 0) :
    spliceSegments segments cutTime (some ns) = [ns] := by
  apply spliceSegments_replace_all segments ns cutTime hne
  rcases hzero with h | h
  · unfold clamp
    rw [max_eq_right h]
    exact min_le_left 0 _
  · rw [h]
    unfold clamp
    exact min_le_right _ 0

/-- Witness for C6 at a concrete input. -/
theorem claim6_replace_all_witness :
    spliceSegments [demoA] (-1) (some newX) = [newX] :=
  claim6_replace_all [demoA] newX (-1) (by simp) (Or.inl (by norm_num))

/-- Claim C7: for a positive fps and an integer frame index, converting the
frame to a time and back returns the same frame (exact arithmetic). -/
theorem frameToTime_eq (frameIndex fps : ℚ) :
    frameToTime frameIndex fps = ((max 0 ⌊frameIndex⌋ : ℤ) : ℚ) / normalizeFps fps :=
  rfl

theorem timeToFrame_eq (timeSeconds fps : ℚ) :
    timeToFrame timeSeconds fps = ⌊max 0 timeSeconds * normalizeFps fps⌋ :=
  rfl

theorem claim7_round_trip (f : ℕ) (fps : ℚ) (hfps : 0 < fps) :
    timeToFrame (frameToTime (f : ℚ) fps) fps = (f : ℤ) := by
  have hnf : normalizeFps fps = fps := if_pos hfps
  have h1 : frameToTime (f : ℚ) fps = (f : ℚ) / fps := by
    rw [frameToTime_eq, hnf, Int.floor_natCast, max_eq_right (Int.natCast_nonneg f)]
    norm_num
  have hnn : (0 : ℚ) ≤ (f : ℚ) / fps := div_nonneg (by positivity) hfps.le
  rw [h1, timeToFrame_eq, hnf, max_eq_right hnn, div_mul_cancel₀ _ (ne_of_gt hfps),
    Int.floor_natCast]

/-- Witness for C7 at `f = 90`, `fps = 30`. -/
theorem claim7_round_trip_witness :
    (0 : ℚ) < 30 ∧ timeToFrame (frameToTime ((90 : ℕ) : ℚ) 30) 30 = ((90 : ℕ) : ℤ) :=
  ⟨by norm_num, claim7_round_trip 90 30 (by norm_num)⟩

/-- Claim C5: the timeline total is the ordered sum of effective durations,
each range starts at the sum of the effective durations before it and ends at
`start + effectiveDuration`, and an empty input yields `{ranges: [], total: 0}`. -/
theorem claim5_computeTimeline (segments : List Segment) :
    (computeTimeline segments).total = (segments.map effDur).sum
    ∧ (computeTimeline segments).ranges.length = segments.length
    ∧ (∀ i, ∀ h : i < segments.length,
        (computeTimeline segments).ranges[i]? =
          some ⟨((segments.take i).map effDur).sum,
                ((segments.take i).map effDur).sum + effDur (segments.get ⟨i, h⟩),
                effDur (segments.get ⟨i, h⟩), segments.get ⟨i, h⟩⟩)
    ∧ computeTimeline [] = ⟨0, []⟩ := by
  refine ⟨?_, ?_, ?_, rfl⟩
  · rw [computeTimeline_eq]
    rfl
  · rw [computeTimeline_eq]
    exact buildRanges_length 0 segments
  · intro i h
    rw [computeTimeline_eq]
    have hlen : i < (buildRanges 0 segments).length := by
      rwa [buildRanges_length]
    have hget := buildRanges_get segments 0 i h
    rw [show (⟨sumDur segments, buildRanges 0 segments⟩ : Timeline).ranges
        = buildRanges 0 segments from rfl]
    rw [List.getElem?_eq_getElem hlen]
    have hg2 : (buildRanges 0 segments)[i] = (buildRanges 0 segments).get ⟨i, hlen⟩ := rfl
    rw [hg2, hget]
    have hsucc := sumDur_take_succ segments i h
    have hgeq : segments[i] = segments.get ⟨i, h⟩ := rfl
    rw [hgeq] at hsucc
    simp only [zero_add, sumDur] at hsucc ⊢
    rw [hsucc]

/-- Witness for C5: the second range of a two-clip timeline. -/
theorem claim5_computeTimeline_witness :
    (computeTimeline [demoA, demoB]).ranges[1]? = some ⟨4, 7, 3, demoB⟩ := by
  have h := (claim5_computeTimeline [demoA, demoB]).2.2.1 1 (by norm_num)
  rw [h]
  norm_num [demoA, demoB, effDur, computeSegmentDuration]

/-- Claim C9: `resolveBookmarkTime` returns `null` exactly when the id is
falsy/absent, no bookmark carries that id, or the (first) matching bookmark's
time is not a finite number; otherwise it returns the match's time. -/
theorem claim9_resolveBookmarkTime (bookmarks : List Bookmark)
    (bookmarkId : Option String) :
    (resolveBookmarkTime bookmarks bookmarkId = none ↔
      bookmarkId = none ∨ bookmarkId = some "" ∨
      (∃ s, bookmarkId = some s ∧
        ((∀ b ∈ bookmarks, b.id ≠ s) ∨
         ∃ m, bookmarks.find? (fun entry => entry.id == s) = some m ∧ m.time = none)))
    ∧ (∀ s m t, bookmarkId = some s → s ≠ "" →
        bookmarks.find? (fun entry => entry.id == s) = some m → m.time = some t →
        resolveBookmarkTime bookmarks bookmarkId = some t) := by
  constructor
  · cases bookmarkId with
    | none => simp [resolveBookmarkTime]
    | some s =>
      by_cases hs : s = ""
      · subst hs
        simp [resolveBookmarkTime]
      · constructor
        · intro hres
          refine Or.inr (Or.inr ⟨s, rfl, ?_⟩)
          simp only [resolveBookmarkTime, if_neg hs] at hres
          cases hfind : bookmarks.find? (fun entry => entry.id == s) with
          | none =>
            left
            intro b hb
            have := List.find?_eq_none.mp hfind b hb
            simpa using this
          | some m =>
            right
            refine ⟨m, rfl, ?_⟩
            cases hm : m.time with
            | none => rfl
            | some t =>
              simp only [hfind, hm] at hres
              exact hres
        · intro hcases
          rcases hcases with h | h | ⟨s2, hs2, hcase⟩
          · exact absurd h (by simp)
          · have : s = "" := by injection h
            exact absurd this hs
          · have hss : s2 = s := by injection hs2.symm
            subst hss
            simp only [resolveBookmarkTime, if_neg hs]
            rcases hcase with hnone | ⟨m, hfind, htime⟩
            · have : bookmarks.find? (fun entry => entry.id == s2) = none := by
                apply List.find?_eq_none.mpr
                intro b hb
                simpa using hnone b hb
              rw [this]
            · simp only [hfind, htime]
  · intro s m t hbid hs hfind htime
    subst hbid
    simp only [resolveBookmarkTime, if_neg hs, hfind, htime]

/-- Demo bookmarks for the C9 witness. -/
def demoBookmarks : List Bookmark :=
  [⟨"b0", none, 0, ""⟩, ⟨"b1", some 2, 5, ""⟩]

/-- Witness for C9: resolving an existing finite-time bookmark. -/
theorem claim9_resolveBookmarkTime_witness :
    resolveBookmarkTime demoBookmarks (some "b1") = some 2 :=
  (claim9_resolveBookmarkTime demoBookmarks (some "b1")).2 "b1" ⟨"b1", some 2, 5, ""⟩ 2
    rfl (by decide) (by decide) rfl

/-- Claim C10 (implicit invariant): for a non-empty list and present new
segment, the splice result always ends with the new segment, and its total
effective duration is the clamped cut time plus the new segment's effective
duration, in every branch. -/
theorem claim10_splice_total (segments : List Segment) (ns : Segment) (cutTime : ℚ)
    (hne : segments ≠ []) :
    (spliceSegments segments cutTime (some ns)).getLast? = some ns
    ∧ (computeTimeline (spliceSegments segments cutTime (some ns))).total
        = clamp cutTime 0 ((computeTimeline segments).total) + effDur ns := by
  have htot : (computeTimeline segments).total = sumDur segments := by
    rw [computeTimeline_eq]
  rw [htot]
  by_cases hpos : 0 < clamp cutTime 0 (sumDur segments)
  · obtain ⟨k, hk, hidx, hres, hofflt, hend, hprev⟩ :=
      spliceSegments_spec segments ns cutTime hne hpos
    rw [hres]
    constructor
    · simp
    · rw [computeTimeline_eq]
      show sumDur _ = _
      rw [show segments.take k
            ++ [{ segments.get ⟨k, hk⟩ with
                  out := some ((segments.get ⟨k, hk⟩).«in»
                    + (clamp cutTime 0 (sumDur segments) - sumDur (segments.take k))) },
                ns]
          = segments.take k
            ++ ([{ segments.get ⟨k, hk⟩ with
                  out := some ((segments.get ⟨k, hk⟩).«in»
                    + (clamp cutTime 0 (sumDur segments) - sumDur (segments.take k))) }]
              ++ [ns]) from by simp]
      rw [sumDur_append, sumDur_append]
      have htrim := effDur_set_out (segments.get ⟨k, hk⟩)
        (clamp cutTime 0 (sumDur segments) - sumDur (segments.take k))
        (by linarith)
      rw [show sumDur [{ segments.get ⟨k, hk⟩ with
                  out := some ((segments.get ⟨k, hk⟩).«in»
                    + (clamp cutTime 0 (sumDur segments) - sumDur (segments.take k))) }]
          = effDur { segments.get ⟨k, hk⟩ with
                  out := some ((segments.get ⟨k, hk⟩).«in»
                    + (clamp cutTime 0 (sumDur segments) - sumDur (segments.take k))) }
          from by rw [sumDur_cons, sumDur_nil, add_zero]]
      rw [htrim]
      rw [show sumDur [ns] = effDur ns from by rw [sumDur_cons, sumDur_nil, add_zero]]
      ring
  · push_neg at hpos
    have h0 : clamp cutTime 0 (sumDur segments) = 0 :=
      le_antisymm hpos (clamp_nonneg _ _ (sumDur_nonneg _))
    rw [spliceSegments_replace_all segments ns cutTime hne (by rw [htot]; exact hpos)]
    refine ⟨rfl, ?_⟩
    rw [h0, computeTimeline_eq]
    show sumDur [ns] = 0 + effDur ns
    rw [sumDur_cons, sumDur_nil, add_zero, zero_add]

/-- Witness for C10 at a concrete interior cut. -/
theorem claim10_splice_total_witness :
    (spliceSegments [demoA, demoB] 5 (some newX)).getLast? = some newX
    ∧ (computeTimeline (spliceSegments [demoA, demoB] 5 (some newX))).total
        = clamp 5 0 ((computeTimeline [demoA, demoB]).total) + effDur newX :=
  claim10_splice_total [demoA, demoB] newX 5 (by simp)

/-- Claim C4: for a cut strictly inside a segment (positive, below total, on
no range boundary), the splice keeps the prefix before the located index
verbatim, sets the located segment's `out` to `in + localTime`, and the
cumulative effective duration of the result up to and including the trimmed
segment is exactly the cut time. -/
theorem claim4_interior_cut (segments : List Segment) (ns : Segment) (cutTime : ℚ)
    (hne : segments ≠ []) (h2 : 0 < cutTime)
    (h3 : cutTime < (computeTimeline segments).total)
    (h4 : ∀ r ∈ (computeTimeline segments).ranges, r.«end» ≠ cutTime) :
    ∃ k, ∃ h : k < segments.length,
      (findSegmentAtTime segments cutTime).index = (k : ℤ)
      ∧ (spliceSegments segments cutTime (some ns)).take k = segments.take k
      ∧ spliceSegments segments cutTime (some ns)
          = segments.take k
            ++ [{ segments.get ⟨k, h⟩ with
                  out := some ((segments.get ⟨k, h⟩).«in»
                    + (findSegmentAtTime segments cutTime).localTime) },
                ns]
      ∧ (((spliceSegments segments cutTime (some ns)).take (k + 1)).map effDur).sum
          = cutTime := by
  have htot : (computeTimeline segments).total = sumDur segments := by
    rw [computeTimeline_eq]
  have hct : cutTime < sumDur segments := by rwa [htot] at h3
  have hclamp : clamp cutTime 0 (sumDur segments) = cutTime :=
    clamp_eq_self _ _ _ h2.le hct.le
  have hpos : 0 < clamp cutTime 0 (sumDur segments) := by rw [hclamp]; exact h2
  obtain ⟨k, hk, hidx, hres, hofflt, hend, hprev⟩ :=
    spliceSegments_spec segments ns cutTime hne hpos
  rw [hclamp] at hidx hres hofflt hend hprev
  obtain ⟨k2, hk2, heq2, hprev2, hend2⟩ := findSegmentAtTime_spec segments cutTime hne
  rw [hclamp] at heq2 hprev2 hend2
  have hkk : k2 = k := by
    have hx : (findSegmentAtTime segments cutTime).index = (k2 : ℤ) := by
      rw [heq2]
    rw [hidx] at hx
    exact_mod_cast hx.symm
  subst hkk
  have hlenk : (segments.take k2).length = k2 := by
    rw [List.length_take]
    exact min_eq_left hk.le
  refine ⟨k2, hk, hidx, ?_, ?_, ?_⟩
  · rw [hres, List.take_append_eq_append_take, hlenk, Nat.sub_self,
      List.take_zero, List.append_nil, List.take_of_length_le (le_of_eq hlenk)]
  · rw [hres, heq2]
  · show sumDur ((spliceSegments segments cutTime (some ns)).take (k2 + 1)) = cutTime
    rw [hres, List.take_append_eq_append_take, hlenk,
      List.take_of_length_le (by omega : (segments.take k2).length ≤ k2 + 1)]
    have hsub : k2 + 1 - k2 = 1 := by omega
    rw [hsub]
    rw [show ([{ segments.get ⟨k2, hk⟩ with
          out := some ((segments.get ⟨k2, hk⟩).«in»
            + (cutTime - sumDur (segments.take k2))) }, ns].take 1)
        = [{ segments.get ⟨k2, hk⟩ with
          out := some ((segments.get ⟨k2, hk⟩).«in»
            + (cutTime - sumDur (segments.take k2))) }] from rfl]
    rw [sumDur_append, sumDur_cons, sumDur_nil,
      effDur_set_out _ _ (by linarith)]
    ring

/-- Witness for C4: cutting `[demoA, demoB]` at `5`, strictly inside the
second clip. -/
theorem claim4_interior_cut_witness :
    ∃ k, ∃ h : k < ([demoA, demoB] : List Segment).length,
      (findSegmentAtTime [demoA, demoB] 5).index = (k : ℤ)
      ∧ (spliceSegments [demoA, demoB] 5 (some newX)).take k = [demoA, demoB].take k
      ∧ spliceSegments [demoA, demoB] 5 (some newX)
          = [demoA, demoB].take k
            ++ [{ ([demoA, demoB] : List Segment).get ⟨k, h⟩ with
                  out := some ((([demoA, demoB] : List Segment).get ⟨k, h⟩).«in»
                    + (findSegmentAtTime [demoA, demoB] 5).localTime) },
                newX]
      ∧ (((spliceSegments [demoA, demoB] 5 (some newX)).take (k + 1)).map effDur).sum
          = 5 :=
  claim4_interior_cut [demoA, demoB] newX 5 (by simp) (by norm_num)
    (by norm_num [computeTimeline, timelineStep, computeSegmentDuration, demoA, demoB])
    (by
      intro r hr
      have hranges : (computeTimeline [demoA, demoB]).ranges
          = [⟨0, 4, 4, demoA⟩, ⟨4, 7, 3, demoB⟩] := by
        norm_num [computeTimeline, timelineStep, computeSegmentDuration, demoA, demoB]
      rw [hranges] at hr
      simp only [List.mem_cons, List.not_mem_nil, or_false] at hr
      rcases hr with hcase | hcase <;> (subst hcase; norm_num))

theorem segment_set_out_eq_self (seg : Segment) (e : ℚ) (h : seg.out = some e) :
    { seg with out := some e } = seg := by
  cases seg with
  | mk i d inn o lab =>
    cases h
    rfl

theorem effDur_of_out (seg : Segment) (e : ℚ) (hout : seg.out = some e)
    (hin : seg.«in» < e) : effDur seg = e - seg.«in» := by
  simp only [effDur, computeSegmentDuration, hout]
  rw [if_pos hin]

theorem sumDur_pos_of_all_pos (segments : List Segment) (hne : segments ≠ [])
    (hpos : ∀ s ∈ segments, 0 < effDur s) : 0 < sumDur segments := by
  have hlen : 0 < segments.length := List.length_pos.mpr hne
  have := sumDur_take_strict_mono segments hpos hlen (le_refl _)
  simpa [sumDur_nil, sumDur_take_length] using this

/-- Counterexample to C1 as frozen: when the last segment's `out` is absent,
splicing at the total duration rewrites its `out` field to a number, so the
result is not the original list with every element unchanged as a value. -/
theorem claim1_counterexample :
    (computeTimeline [demoNoOut]).total = 2
    ∧ (0 : ℚ) < 2
    ∧ spliceSegments [demoNoOut] 2 (some newX) ≠ [demoNoOut, newX] := by
  refine ⟨?_, by norm_num, ?_⟩
  · norm_num [computeTimeline, timelineStep, computeSegmentDuration, demoNoOut]
  · have heval : spliceSegments [demoNoOut] 2 (some newX)
        = [{ demoNoOut with out := some 2 }, newX] := by
      norm_num [spliceSegments, computeTimeline, timelineStep, computeSegmentDuration,
        findSegmentAtTime, scanRanges, clamp, demoNoOut, newX]
    rw [heval]
    intro hcontra
    have hhead : ({ demoNoOut with out := some 2 } : Segment) = demoNoOut := by
      injection hcontra
    have := congrArg Segment.out hhead
    simp [demoNoOut] at this

/-- Claim C1 (amended): if the last segment carries a finite `out` above its
`in`, then splicing a non-empty list at the timeline total returns the
original list with the new segment appended and every element unchanged as a
value.  No condition on the other segments is needed: the last segment's
positive effective duration already keeps every earlier cumulative end
strictly below the total. -/
theorem claim1_append_at_total (segments : List Segment) (ns : Segment)
    (hne : segments ≠ [])
    (hlast : ∃ e, (segments.getLast hne).out = some e
      ∧ (segments.getLast hne).«in» < e) :
    spliceSegments segments ((computeTimeline segments).total) (some ns)
      = segments ++ [ns] := by
  obtain ⟨e, hout, hin⟩ := hlast
  have htot : (computeTimeline segments).total = sumDur segments := by
    rw [computeTimeline_eq]
  rw [htot]
  have hlen : 0 < segments.length := List.length_pos.mpr hne
  have hklt : segments.length - 1 < segments.length := by omega
  have hgetlast : segments.get ⟨segments.length - 1, hklt⟩ = segments.getLast hne := by
    rw [List.getLast_eq_getElem]
    exact List.get_eq_getElem segments ⟨segments.length - 1, hklt⟩
  have heffl : effDur (segments.getLast hne) = e - (segments.getLast hne).«in» :=
    effDur_of_out _ _ hout hin
  have heffpos : 0 < effDur (segments.getLast hne) := by
    rw [heffl]; linarith
  have hk1len : segments.length - 1 + 1 = segments.length := by omega
  have hstep := sumDur_take_succ segments (segments.length - 1) hklt
  have hgeq : segments[segments.length - 1]
      = segments.get ⟨segments.length - 1, hklt⟩ := rfl
  rw [hgeq, hgetlast, hk1len, sumDur_take_length] at hstep
  have htpos : 0 < sumDur segments := by
    have := sumDur_nonneg (segments.take (segments.length - 1))
    linarith
  have hclamp : clamp (sumDur segments) 0 (sumDur segments) = sumDur segments :=
    clamp_eq_self _ _ _ htpos.le (le_refl _)
  have hcpos : 0 < clamp (sumDur segments) 0 (sumDur segments) := by
    rw [hclamp]; exact htpos
  obtain ⟨k, hk, hidx, hres, hofflt, hend, hprev⟩ :=
    spliceSegments_spec segments ns (sumDur segments) hne hcpos
  rw [hclamp] at hidx hres hofflt hend hprev
  have hklast : k = segments.length - 1 := by
    by_contra hkne
    have hk1 : k + 1 ≤ segments.length - 1 := by omega
    have hmono : sumDur (segments.take (k + 1))
        ≤ sumDur (segments.take (segments.length - 1)) :=
      sumDur_take_mono segments hk1
    linarith
  subst hklast
  have hlocal : sumDur segments - sumDur (segments.take (segments.length - 1))
      = effDur (segments.getLast hne) := by linarith
  rw [hres, hgetlast, hlocal, heffl]
  rw [show (segments.getLast hne).«in» + (e - (segments.getLast hne).«in») = e by ring]
  rw [segment_set_out_eq_self _ _ hout]
  rw [show segments.take (segments.length - 1) ++ [segments.getLast hne, ns]
      = (segments.take (segments.length - 1) ++ [segments.getLast hne]) ++ [ns]
      from by simp]
  congr 1
  rw [show segments.take (segments.length - 1) = segments.dropLast
      from by rw [List.dropLast_eq_take]]
  exact List.dropLast_append_getLast hne

/-- Witness for amended C1: appending at the total of `[demoA, demoB]`. -/
theorem claim1_append_at_total_witness :
    spliceSegments [demoA, demoB] ((computeTimeline [demoA, demoB]).total) (some newX)
      = [demoA, demoB] ++ [newX] :=
  claim1_append_at_total [demoA, demoB] newX (by simp)
    ⟨3, by simp [demoB], by simp [demoB]⟩

/-- Counterexample to C3 as frozen: with a zero-duration segment in the
middle, the boundary between segments 1 and 2 (time 4, which is both the
cumulative end of segment 1 and the cumulative start of segment 2, strictly
between 0 and the total) resolves to index 0, not index 1. -/
theorem claim3_counterexample :
    2 ≤ ([demoA, demoZ, demoC] : List Segment).length
    ∧ ((([demoA, demoZ, demoC] : List Segment).take 2).map effDur).sum = 4
    ∧ (0 : ℚ) < 4
    ∧ (4 : ℚ) < (computeTimeline [demoA, demoZ, demoC]).total
    ∧ (findSegmentAtTime [demoA, demoZ, demoC] 4).index ≠ ((1 : ℕ) : ℤ) := by
  refine ⟨by norm_num, ?_, by norm_num, ?_, ?_⟩
  · norm_num [effDur, computeSegmentDuration, demoA, demoZ]
  · norm_num [computeTimeline, timelineStep, computeSegmentDuration,
      demoA, demoZ, demoC]
  · have heval : (findSegmentAtTime [demoA, demoZ, demoC] 4).index = ((0 : ℕ) : ℤ) := by
      norm_num [findSegmentAtTime, computeTimeline, timelineStep,
        computeSegmentDuration, clamp, scanRanges, demoA, demoZ, demoC]
    rw [heval]
    norm_num

/-- Claim C3 (amended): when the earlier segment `i` of the boundary pair has
positive effective duration, a cut exactly on the interior boundary after
segment `i` (a time strictly below the total) resolves to index `i` with
`localTime` equal to segment `i`'s full effective duration, never to the start
of segment `i + 1`.  The other segments are unconstrained. -/
theorem claim3_boundary_tiebreak (segments : List Segment) (i : ℕ)
    (hi : i + 1 < segments.length)
    (hposi : 0 < effDur (segments.get ⟨i, Nat.lt_of_succ_lt hi⟩))
    (ht : ((segments.take (i + 1)).map effDur).sum
      < (computeTimeline segments).total) :
    (findSegmentAtTime segments (((segments.take (i + 1)).map effDur).sum)).index
        = (i : ℤ)
    ∧ (findSegmentAtTime segments (((segments.take (i + 1)).map effDur).sum)).localTime
        = effDur (segments.get ⟨i, Nat.lt_of_succ_lt hi⟩) := by
  have hii : i < segments.length := Nat.lt_of_succ_lt hi
  have hne : segments ≠ [] := by
    intro hnil
    rw [hnil] at hi
    simp at hi
  have hstepi := sumDur_take_succ segments i hii
  have hgeqi : segments[i] = segments.get ⟨i, hii⟩ := rfl
  rw [hgeqi] at hstepi
  have hposi2 : 0 < effDur (segments.get ⟨i, hii⟩) := hposi
  have ht0 : (0 : ℚ) < sumDur (segments.take (i + 1)) := by
    have hnn := sumDur_nonneg (segments.take i)
    linarith
  have httot : sumDur (segments.take (i + 1)) < sumDur segments := by
    have h2 : (computeTimeline segments).total = sumDur segments := by
      rw [computeTimeline_eq]
    rw [h2] at ht
    exact ht
  have hclamp : clamp (sumDur (segments.take (i + 1))) 0 (sumDur segments)
      = sumDur (segments.take (i + 1)) :=
    clamp_eq_self _ _ _ ht0.le httot.le
  obtain ⟨k, hk, heq, hprev, hend⟩ :=
    findSegmentAtTime_spec segments (sumDur (segments.take (i + 1))) hne
  rw [hclamp] at heq hprev hend
  have hki : k = i := by
    by_contra hkne
    rcases Nat.lt_or_ge k i with hlt | hge
    · have h1 : sumDur (segments.take (k + 1)) ≤ sumDur (segments.take i) :=
        sumDur_take_mono segments (by omega)
      linarith
    · have hik : i < k := by omega
      have := hprev i hik
      linarith
  subst hki
  have hlocal : sumDur (segments.take (k + 1)) - sumDur (segments.take k)
      = effDur (segments.get ⟨k, hii⟩) := by
    have hstep := sumDur_take_succ segments k hii
    have hgeq : segments[k] = segments.get ⟨k, hii⟩ := rfl
    rw [hgeq] at hstep
    linarith
  constructor
  · show (findSegmentAtTime segments (sumDur (segments.take (k + 1)))).index = (k : ℤ)
    rw [heq]
  · show (findSegmentAtTime segments (sumDur (segments.take (k + 1)))).localTime
      = effDur (segments.get ⟨k, hii⟩)
    rw [heq]
    exact hlocal

/-- Witness for amended C3: the boundary after the first clip of
`[demoA, demoB]` resolves to index 0 with local time 4. -/
theorem claim3_boundary_tiebreak_witness :
    (findSegmentAtTime [demoA, demoB]
        ((([demoA, demoB] : List Segment).take (0 + 1)).map effDur).sum).index
      = ((0 : ℕ) : ℤ)
    ∧ (findSegmentAtTime [demoA, demoB]
        ((([demoA, demoB] : List Segment).take (0 + 1)).map effDur).sum).localTime
      = effDur (([demoA, demoB] : List Segment).get ⟨0, by norm_num⟩) :=
  claim3_boundary_tiebreak [demoA, demoB] 0
    (by norm_num)
    (by norm_num [effDur, computeSegmentDuration, demoA])
    (by norm_num [computeTimeline, timelineStep, computeSegmentDuration, effDur,
      demoA, demoB])

/-- Counterexample to C2 as frozen: `createBookmark` reads the ambient clock
and random draw, so calls with equal explicit arguments but different ambient
state return different results, and calls with different explicit arguments
but the same ambient state collide on the same id — the id is not unique
within a session. -/
theorem claim2_counterexample :
    (createBookmark 0 30 "" 5 7).id = (createBookmark 1 30 "" 5 7).id
    ∧ createBookmark 0 30 "" 5 7 ≠ createBookmark 1 30 "" 5 7
    ∧ createBookmark 0 30 "" 5 7 ≠ createBookmark 0 30 "" 6 7 := by
  refine ⟨rfl, ?_, ?_⟩
  · intro h
    have htime := congrArg Bookmark.time h
    norm_num [createBookmark] at htime
  · intro h
    have hid := congrArg Bookmark.id h
    have hne : ("bm-" ++ toString (5 : ℕ) ++ "-" ++ toString (7 : ℕ))
        ≠ ("bm-" ++ toString (6 : ℕ) ++ "-" ++ toString (7 : ℕ)) := by decide
    exact hne hid

/-- Claim C2 (amended): `createBookmark` is deterministic only jointly in its
explicit arguments and the ambient `(now, rand)` pair; its id depends only on
the ambient pair (so two calls sharing that pair share an id regardless of
arguments, and uniqueness requires distinct ambient pairs), while the non-id
fields are pure functions of the explicit arguments: `time = max 0 t`,
`frame = timeToFrame t fps`, and the image is stored as given. -/
theorem claim2_bookmark_determinism (t1 t2 fps1 fps2 : ℚ) (img1 img2 : String)
    (now rand : ℕ) :
    (createBookmark t1 fps1 img1 now rand).id
        = (createBookmark t2 fps2 img2 now rand).id
    ∧ (createBookmark t1 fps1 img1 now rand).time = some (max 0 t1)
    ∧ (createBookmark t1 fps1 img1 now rand).frame = timeToFrame t1 fps1
    ∧ (createBookmark t1 fps1 img1 now rand).image = img1 := by
  refine ⟨rfl, rfl, ?_, rfl⟩
  show timeToFrame (max 0 t1) fps1 = timeToFrame t1 fps1
  rw [timeToFrame_eq, timeToFrame_eq, ← max_assoc, max_self]

/-! ### Heap-level model of `spliceSegments` for the frame/no-mutation claim

JavaScript objects live on a heap and are passed by reference.  To state that
`spliceSegments` never mutates its input array or the input segment objects
and returns a newly allocated array, the function is transcribed once more
with the allocations explicit: every object literal the source creates
(`current.slice()`, the `{...seg}` copies, the trimmed `{...segment, out}`,
and the result array) becomes an `alloc` on an address-indexed store. -/

/-- A heap object: a segment record or an array of object addresses. -/
inductive Obj where
  | seg (value : Segment)
  | arr (elems : List ℕ)
deriving DecidableEq, Repr

/-- An address-indexed store with a bump allocator. -/
structure Heap where
  next : ℕ
  store : List (ℕ × Obj)
deriving DecidableEq, Repr

/-- Look an address up in the store. -/
def Heap.lookup (σ : Heap) (a : ℕ) : Option Obj := σ.store.lookup a

/-- Allocate a fresh object, returning the new heap and the new address. -/
def Heap.alloc (σ : Heap) (o : Obj) : Heap × ℕ :=
  (⟨σ.next + 1, (σ.next, o) :: σ.store⟩, σ.next)

/-- Read a segment object at an address (a non-segment reads as an all-default
record, which only affects values, not the allocation behaviour). -/
def segAt (σ : Heap) (a : ℕ) : Segment :=
  match σ.lookup a with
  | some (.seg s) => s
  | _ => ⟨"", 0, 0, none, ""⟩

/-- Allocate fresh copies of a list of segment values, in order: the
`current.slice(0, index).map(seg => ({...seg}))` of the source. -/
def allocSegs (σ : Heap) : List Segment → Heap × List ℕ
  | [] => (σ, [])
  | s :: rest =>
    let p := σ.alloc (.seg s)
    let q := allocSegs p.1 rest
    (q.1, p.2 :: q.2)

/-- Read an array object at an address (`Array.isArray(segments)` guard: a
non-array reads as the empty array). -/
def arrAt (σ : Heap) (a : ℕ) : List ℕ :=
  match σ.lookup a with
  | some (.arr es) => es
  | _ => []

/-- The two-way trim step of the replace-tail branch: allocate the trimmed
segment when it keeps positive length (`trimmedEnd > segment.in`), then append
the new segment's address. `p` is the heap/addresses pair after the prefix
copies. -/
def spliceTrim (p : Heap × List ℕ) (segment : Segment) (localTime : ℚ)
    (ns : ℕ) : Heap × List ℕ :=
  if segment.«in» < segment.«in» + localTime then
    ((p.1.alloc (.seg { segment with out := some (segment.«in» + localTime) })).1,
      p.2 ++ [(p.1.alloc (.seg { segment with
        out := some (segment.«in» + localTime) })).2, ns])
  else (p.1, p.2 ++ [ns])

/-- The replace-tail branch of `spliceSegments` over the heap, taking the
destructured `findSegmentAtTime` result `r`: bail out to a copy of the input
on the sentinel, otherwise allocate the prefix copies and trim. -/
def spliceTail (σ : Heap) (segs : List Segment) (current : List ℕ)
    (r : FindResult) (ns : ℕ) : Heap × List ℕ :=
  match r.segment with
  | none => (σ, current)
  | some segment =>
    if r.index < 0 then (σ, current)
    else spliceTrim (allocSegs σ (segs.take r.index.toNat)) segment r.localTime ns

/-- The body of `spliceSegments` over the heap, up to but excluding the final
result-array allocation: returns the heap after all segment-copy allocations
together with the element addresses of the result. -/
def spliceAllocs (σ : Heap) (a : ℕ) (cutTime : ℚ) (newSeg : Option ℕ) :
    Heap × List ℕ :=
  if (arrAt σ a).isEmpty then
    match newSeg with
    | some ns => (σ, [ns])
    | none => (σ, [])
  else
    match newSeg with
    | none => (σ, arrAt σ a)
    | some ns =>
      if clamp cutTime 0 (computeTimeline ((arrAt σ a).map (segAt σ))).total ≤ 0 then
        (σ, [ns])
      else
        spliceTail σ ((arrAt σ a).map (segAt σ)) (arrAt σ a)
          (findSegmentAtTime ((arrAt σ a).map (segAt σ))
            (clamp cutTime 0 (computeTimeline ((arrAt σ a).map (segAt σ))).total))
          ns

/-- `spliceSegments` over the heap: run the body and allocate the new result
array. -/
def spliceSegmentsH (σ : Heap) (a : ℕ) (cutTime : ℚ) (newSeg : Option ℕ) :
    Heap × ℕ :=
  ((spliceAllocs σ a cutTime newSeg).1.alloc
    (.arr (spliceAllocs σ a cutTime newSeg).2))

theorem alloc_lookup_lt (σ : Heap) (o : Obj) (x : ℕ) (hx : x < σ.next) :
    ((σ.alloc o).1).lookup x = σ.lookup x := by
  have hne : x ≠ σ.next := Nat.ne_of_lt hx
  show (match x == σ.next with
    | true => some o
    | false => List.lookup x σ.store) = List.lookup x σ.store
  rw [show (x == σ.next) = false from by simpa using hne]

theorem alloc_next (σ : Heap) (o : Obj) : (σ.alloc o).1.next = σ.next + 1 := rfl

theorem alloc_ret (σ : Heap) (o : Obj) : (σ.alloc o).2 = σ.next := rfl

theorem allocSegs_lookup_lt (l : List Segment) :
    ∀ (σ : Heap) (x : ℕ), x < σ.next →
      ((allocSegs σ l).1).lookup x = σ.lookup x := by
  induction l with
  | nil => intro σ x hx; rfl
  | cons s rest ih =>
    intro σ x hx
    show ((allocSegs (σ.alloc (.seg s)).1 rest).1).lookup x = σ.lookup x
    rw [ih (σ.alloc (.seg s)).1 x (by rw [alloc_next]; omega)]
    exact alloc_lookup_lt σ (.seg s) x hx

theorem allocSegs_next_le (l : List Segment) :
    ∀ σ : Heap, σ.next ≤ (allocSegs σ l).1.next := by
  induction l with
  | nil => intro σ; exact le_refl _
  | cons s rest ih =>
    intro σ
    have h1 : σ.next ≤ (σ.alloc (.seg s)).1.next := by rw [alloc_next]; omega
    exact le_trans h1 (ih (σ.alloc (.seg s)).1)

theorem spliceTrim_lookup_lt (p : Heap × List ℕ) (segment : Segment)
    (localTime : ℚ) (ns : ℕ) (x : ℕ) (hx : x < p.1.next) :
    ((spliceTrim p segment localTime ns).1).lookup x = p.1.lookup x := by
  unfold spliceTrim
  split
  · exact alloc_lookup_lt p.1 _ x hx
  · rfl

theorem spliceTrim_next_le (p : Heap × List ℕ) (segment : Segment)
    (localTime : ℚ) (ns : ℕ) :
    p.1.next ≤ (spliceTrim p segment localTime ns).1.next := by
  unfold spliceTrim
  split
  · rw [alloc_next]; omega
  · exact le_refl _

theorem spliceTail_lookup_lt (σ : Heap) (segs : List Segment) (current : List ℕ)
    (r : FindResult) (ns : ℕ) (x : ℕ) (hx : x < σ.next) :
    ((spliceTail σ segs current r ns).1).lookup x = σ.lookup x := by
  unfold spliceTail
  split
  · rfl
  · split
    · rfl
    · rw [spliceTrim_lookup_lt _ _ _ _ x
        (lt_of_lt_of_le hx (allocSegs_next_le _ σ))]
      exact allocSegs_lookup_lt _ σ x hx

theorem spliceTail_next_le (σ : Heap) (segs : List Segment) (current : List ℕ)
    (r : FindResult) (ns : ℕ) :
    σ.next ≤ (spliceTail σ segs current r ns).1.next := by
  unfold spliceTail
  split
  · exact le_refl _
  · split
    · exact le_refl _
    · exact le_trans (allocSegs_next_le _ σ) (spliceTrim_next_le _ _ _ _)

theorem spliceAllocs_lookup_lt (σ : Heap) (a : ℕ) (cutTime : ℚ)
    (newSeg : Option ℕ) (x : ℕ) (hx : x < σ.next) :
    ((spliceAllocs σ a cutTime newSeg).1).lookup x = σ.lookup x := by
  unfold spliceAllocs
  split
  · split <;> rfl
  · split
    · rfl
    · split
      · rfl
      · exact spliceTail_lookup_lt σ _ _ _ _ x hx

theorem spliceAllocs_next_le (σ : Heap) (a : ℕ) (cutTime : ℚ)
    (newSeg : Option ℕ) :
    σ.next ≤ (spliceAllocs σ a cutTime newSeg).1.next := by
  unfold spliceAllocs
  split
  · split <;> exact le_refl _
  · split
    · exact le_refl _
    · split
      · exact le_refl _
      · exact spliceTail_next_le σ _ _ _ _

/-- Claim C8: over the heap model, `spliceSegments` leaves every pre-existing
object — the input array and all input segment objects — unchanged (every
address allocated before the call still looks up to the same object), and the
returned array is a fresh allocation, in particular never the input array's
address. -/
theorem claim8_no_mutation (σ : Heap) (a : ℕ) (cutTime : ℚ) (newSeg : Option ℕ)
    (ha : a < σ.next) :
    (∀ x, x < σ.next →
      ((spliceSegmentsH σ a cutTime newSeg).1).lookup x = σ.lookup x)
    ∧ σ.next ≤ (spliceSegmentsH σ a cutTime newSeg).2
    ∧ (spliceSegmentsH σ a cutTime newSeg).2 ≠ a := by
  have hres : (spliceSegmentsH σ a cutTime newSeg).2
      = (spliceAllocs σ a cutTime newSeg).1.next := rfl
  refine ⟨?_, ?_, ?_⟩
  · intro x hx
    show (((spliceAllocs σ a cutTime newSeg).1.alloc
      (.arr (spliceAllocs σ a cutTime newSeg).2)).1).lookup x = σ.lookup x
    rw [alloc_lookup_lt _ _ x
      (lt_of_lt_of_le hx (spliceAllocs_next_le σ a cutTime newSeg))]
    exact spliceAllocs_lookup_lt σ a cutTime newSeg x hx
  · rw [hres]
    exact spliceAllocs_next_le σ a cutTime newSeg
  · rw [hres]
    have := spliceAllocs_next_le σ a cutTime newSeg
    omega

/-- A concrete two-object heap: address 0 is the input array, address 1 its
single segment. -/
def demoHeap : Heap := ⟨2, [(0, .arr [1]), (1, .seg demoA)]⟩

/-- Witness for C8: after a splice on the demo heap, the segment at address 1
is unchanged and the result array is a fresh address distinct from the input
array's. -/
theorem claim8_no_mutation_witness :
    ((spliceSegmentsH demoHeap 0 2 none).1).lookup 1 = demoHeap.lookup 1
    ∧ demoHeap.next ≤ (spliceSegmentsH demoHeap 0 2 none).2
    ∧ (spliceSegmentsH demoHeap 0 2 none).2 ≠ 0 :=
  ⟨(claim8_no_mutation demoHeap 0 2 none (by decide)).1 1 (by decide),
   (claim8_no_mutation demoHeap 0 2 none (by decide)).2.1,
   (claim8_no_mutation demoHeap 0 2 none (by decide)).2.2⟩
